import Mathlib

/-!
Verification of the power-curve engine (`src/power_curve.rs`) of the
fitness-platform-analysis backend.

The engine is embedded shallowly:

* power samples (`u64` in the source, hence non-negative) become `Nat`;
* `f32` averages are modelled exactly: the engine's only floating-point
  operation is a single division `sum as f32 / slice.len() as f32` of exact
  integer operands, which we render as exact division in `ℚ`; every
  comparison and maximum the engine performs on those values is then
  mirrored on `ℚ`;
* the rayon indexed parallel map with order-preserving `collect` becomes
  `List.map` over the bucket list; scheduling nondeterminism is modelled
  separately by an explicit completion order (`scheduled_power_curve`).
-/

namespace PowerCurve

/-- The constant `MAX_DURATION` of `power_curve.rs`: 24 hours in seconds. -/
def MAX_DURATION : Nat := 86400

/-- Rust's inclusive stepped range `(lo..=hi).step_by(step)` as a list
`[lo, lo+step, ...]` of every value `≤ hi`; `(hi + step - lo) / step`
counts its elements. -/
def stepRangeIncl (lo hi step : Nat) : List Nat :=
  List.range' lo ((hi + step - lo) / step) step

/-- The global staircase `POWER_CURVE_BUCKETS` of `power_curve.rs`:
`1..=300`, then `(310..=3600).step_by(10)`, then
`(3700..=MAX_DURATION).step_by(30)`. -/
def POWER_CURVE_BUCKETS : List Nat :=
  stepRangeIncl 1 300 1 ++ stepRangeIncl 310 3600 10 ++
    stepRangeIncl 3700 MAX_DURATION 30

/-- The helper `get_power_curve_buckets` of `power_curve.rs`: clamp the
recording duration at `MAX_DURATION`, find the position of the first bucket
exceeding it (the list length when none does), and take the prefix up to
that position. -/
def get_power_curve_buckets (duration : Nat) : List Nat :=
  let d := min duration MAX_DURATION
  let end_index := POWER_CURVE_BUCKETS.findIdx (fun x => decide (d < x))
  POWER_CURVE_BUCKETS.take end_index

/-- The helper `average` of `power_curve.rs`: the exact integer sum of the
slice divided by the slice length. -/
def average (slice : List Nat) : ℚ :=
  (slice.sum : ℚ) / (slice.length : ℚ)

/-- The slice `power_data[i..i + d]` of the source. -/
def window (power_data : List Nat) (i d : Nat) : List Nat :=
  (power_data.drop i).take d

/-- The per-duration stream of window averages,
`(0..power_data.len() - duration + 1).map(|i| average(&power_data[i..i + duration]))`. -/
def windowAvgs (power_data : List Nat) (d : Nat) : List ℚ :=
  (List.range (power_data.length - d + 1)).map fun i => average (window power_data i d)

/-- Rust's `f32::max` on the modelled values: the larger of the two
arguments. -/
def fmax (a b : ℚ) : ℚ := if a ≤ b then b else a

/-- The per-duration fold `.fold(0.0, |a, b| a.max(b))` of the source:
the running maximum of the window averages, seeded at `0`. -/
def bestAvg (power_data : List Nat) (d : Nat) : ℚ :=
  (windowAvgs power_data d).foldl fmax 0

/-- The function `calculate_power_curve` of `power_curve.rs`: empty input
gives an empty curve; otherwise map every candidate duration to its best
window average.  Rayon's indexed parallel `collect` preserves the order of
the bucket list, so the fan-out/fan-in is a `List.map`. -/
def calculate_power_curve (power_data : List Nat) : List (Nat × ℚ) :=
  if power_data.isEmpty then []
  else (get_power_curve_buckets power_data.length).map fun d => (d, bestAvg power_data d)

/-- Modelled from the spec (§4.2, §9): the recommended prefix-sum array, an
array whose `i`-th entry is the exact integer sum of the first `i` samples. -/
def prefixSums (power_data : List Nat) : List Nat :=
  List.scanl (· + ·) 0 power_data

/-- Modelled from the spec (§4.2, §9): the optimized per-duration window
averages, each window sum derived from the prefix-sum array as
`prefix[i + d] - prefix[i]` and then divided by the duration. -/
def windowAvgsOpt (power_data : List Nat) (d : Nat) : List ℚ :=
  let P := prefixSums power_data
  (List.range (power_data.length - d + 1)).map fun i =>
    ((P.getD (i + d) 0 - P.getD i 0 : Nat) : ℚ) / (d : ℚ)

/-- Modelled from the spec (§4.2, §9): the optimized per-duration maximizer,
folding the same floored maximum over the prefix-sum-derived averages. -/
def bestAvgOpt (power_data : List Nat) (d : Nat) : ℚ :=
  (windowAvgsOpt power_data d).foldl fmax 0

/-- Modelled from the spec (§4.2, §9): the engine with the recommended
prefix-sum optimization substituted for the naive window maximizer. -/
def calculate_power_curve_opt (power_data : List Nat) : List (Nat × ℚ) :=
  if power_data.isEmpty then []
  else (get_power_curve_buckets power_data.length).map fun d => (d, bestAvgOpt power_data d)

/-- The parallel fan-out/fan-in of the source made explicit: the candidate
durations are evaluated in an arbitrary completion order `ord` (a
permutation of the bucket indices), each result is tagged with its bucket
index, and the fan-in places every result back at its index — exactly what
rayon's indexed parallel `collect` does. -/
def scheduled_power_curve (power_data : List Nat) (ord : List Nat) : List (Nat × ℚ) :=
  if power_data.isEmpty then []
  else
    let buckets := get_power_curve_buckets power_data.length
    let results := ord.map fun i =>
      (i, (buckets.getD i 0, bestAvg power_data (buckets.getD i 0)))
    (List.range buckets.length).filterMap fun j =>
      (results.find? fun r => r.1 == j).map Prod.snd

section Helpers

/-- Taking the prefix up to the first index satisfying `p` is taking while
`p` fails. -/
theorem take_findIdx {α : Type} (p : α → Bool) :
    ∀ l : List α, l.take (l.findIdx p) = l.takeWhile (fun a => !p a) := by
  intro l
  induction l with
  | nil => rfl
  | cons a t ih =>
    rw [List.findIdx_cons, List.takeWhile_cons]
    cases hpa : p a
    · simp [hpa, ih]
    · simp [hpa]

theorem not_lt_decide (d x : Nat) : (!decide (d < x)) = decide (x ≤ d) := by
  rcases Nat.lt_or_ge d x with h | h
  · simp [h, Nat.not_le.mpr h]
  · simp [h, Nat.not_lt.mpr h]

/-- On a list sorted by `≤`, taking while `≤ d` is the same as filtering. -/
theorem takeWhile_le_eq_filter (d : Nat) :
    ∀ l : List Nat, l.Pairwise (· ≤ ·) →
      l.takeWhile (fun x => decide (x ≤ d)) = l.filter (fun x => decide (x ≤ d)) := by
  intro l
  induction l with
  | nil => intro _; rfl
  | cons a t ih =>
    intro hp
    rcases List.pairwise_cons.mp hp with ⟨ha, ht⟩
    by_cases h : a ≤ d
    · rw [List.takeWhile_cons_of_pos (by simpa using h),
        List.filter_cons_of_pos (by simpa using h), ih ht]
    · rw [List.takeWhile_cons_of_neg (by simpa using h),
        List.filter_cons_of_neg (by simpa using h)]
      symm
      rw [List.filter_eq_nil_iff]
      intro b hb
      simp only [decide_eq_true_eq]
      have := ha b hb
      omega

theorem seg1_eq : stepRangeIncl 1 300 1 = List.range' 1 300 1 := by
  norm_num [stepRangeIncl]

theorem seg2_eq : stepRangeIncl 310 3600 10 = List.range' 310 330 10 := by
  norm_num [stepRangeIncl]

theorem seg3_eq : stepRangeIncl 3700 MAX_DURATION 30 = List.range' 3700 2757 30 := by
  norm_num [stepRangeIncl, MAX_DURATION]

/-- The staircase is strictly increasing. -/
theorem bucket_pairwise_lt : POWER_CURVE_BUCKETS.Pairwise (· < ·) := by
  rw [POWER_CURVE_BUCKETS, seg1_eq, seg2_eq, seg3_eq]
  refine List.pairwise_append.mpr ⟨List.pairwise_append.mpr
    ⟨List.pairwise_lt_range' 1 300 1 (by norm_num),
      List.pairwise_lt_range' 310 330 10 (by norm_num), ?_⟩,
    List.pairwise_lt_range' 3700 2757 30 (by norm_num), ?_⟩
  · intro a ha b hb
    rw [List.mem_range'] at ha hb
    obtain ⟨i, hi, rfl⟩ := ha
    obtain ⟨j, hj, rfl⟩ := hb
    omega
  · intro a ha b hb
    rw [List.mem_append, List.mem_range', List.mem_range'] at ha
    rw [List.mem_range'] at hb
    obtain ⟨j, hj, rfl⟩ := hb
    rcases ha with ⟨i, hi, rfl⟩ | ⟨i, hi, rfl⟩ <;> omega

theorem bucket_pairwise_le : POWER_CURVE_BUCKETS.Pairwise (· ≤ ·) :=
  bucket_pairwise_lt.imp Nat.le_of_lt

/-- Every staircase entry lies between 1 and 86380. -/
theorem bucket_bounds : ∀ x ∈ POWER_CURVE_BUCKETS, 1 ≤ x ∧ x ≤ 86380 := by
  intro x hx
  rw [POWER_CURVE_BUCKETS, seg1_eq, seg2_eq, seg3_eq, List.mem_append, List.mem_append,
    List.mem_range', List.mem_range', List.mem_range'] at hx
  rcases hx with (⟨i, hi, rfl⟩ | ⟨i, hi, rfl⟩) | ⟨i, hi, rfl⟩ <;> omega

theorem one_mem_buckets : 1 ∈ POWER_CURVE_BUCKETS := by
  rw [POWER_CURVE_BUCKETS, seg1_eq, List.mem_append, List.mem_append, List.mem_range']
  exact Or.inl (Or.inl ⟨0, by norm_num⟩)

/-- The last entry of a non-empty stepped range. -/
theorem getLast?_range'_step :
    ∀ (n s step : Nat), n ≠ 0 → (List.range' s n step).getLast? = some (s + step * (n - 1)) := by
  intro n
  induction n with
  | zero => intro s step h; exact absurd rfl h
  | succ m ih =>
    intro s step _
    rw [List.range'_succ, List.getLast?_cons]
    cases m with
    | zero => simp
    | succ k =>
      rw [ih (s + step) step (by omega)]
      simp only [Option.getD_some, Nat.succ_sub_one]
      congr 1
      ring

/-- The last staircase entry is 86380. -/
theorem bucket_getLast? : POWER_CURVE_BUCKETS.getLast? = some 86380 := by
  rw [POWER_CURVE_BUCKETS, List.getLast?_append, seg3_eq,
    getLast?_range'_step 2757 3700 30 (by norm_num)]
  rfl

/-- The bucket selector is a filter of the staircase by the clamped
recording length. -/
theorem getBuckets_eq_filter (n : Nat) :
    get_power_curve_buckets n =
      POWER_CURVE_BUCKETS.filter (fun x => decide (x ≤ min n MAX_DURATION)) := by
  rw [get_power_curve_buckets, take_findIdx,
    show (fun a => !(fun x => decide (min n MAX_DURATION < x)) a) =
      (fun x => decide (x ≤ min n MAX_DURATION)) from
        funext fun x => not_lt_decide (min n MAX_DURATION) x,
    takeWhile_le_eq_filter (min n MAX_DURATION) POWER_CURVE_BUCKETS bucket_pairwise_le]

/-- Membership in the candidate set means membership in the staircase and
being bounded by the clamped recording length. -/
theorem mem_getBuckets {d n : Nat} :
    d ∈ get_power_curve_buckets n ↔ d ∈ POWER_CURVE_BUCKETS ∧ d ≤ min n MAX_DURATION := by
  rw [getBuckets_eq_filter, List.mem_filter]
  simp

theorem fmax_eq_max (a b : ℚ) : fmax a b = max a b := by
  rw [fmax]
  split
  · exact (max_eq_right (by assumption)).symm
  · exact (max_eq_left (le_of_not_le (by assumption))).symm

/-- The seed is a lower bound of the running-maximum fold. -/
theorem le_foldl_fmax : ∀ (l : List ℚ) (a : ℚ), a ≤ l.foldl fmax a := by
  intro l
  induction l with
  | nil => intro a; exact le_refl a
  | cons b t ih =>
    intro a
    calc a ≤ fmax a b := by rw [fmax_eq_max]; exact le_max_left a b
    _ ≤ (b :: t).foldl fmax a := by rw [List.foldl_cons]; exact ih (fmax a b)

/-- Every list element is a lower bound of the running-maximum fold. -/
theorem mem_le_foldl_fmax :
    ∀ (l : List ℚ) (a x : ℚ), x ∈ l → x ≤ l.foldl fmax a := by
  intro l
  induction l with
  | nil => intro a x hx; exact absurd hx (List.not_mem_nil x)
  | cons b t ih =>
    intro a x hx
    rw [List.foldl_cons]
    rcases List.mem_cons.mp hx with rfl | hx
    · calc x ≤ fmax a x := by rw [fmax_eq_max]; exact le_max_right a x
      _ ≤ t.foldl fmax (fmax a x) := le_foldl_fmax t (fmax a x)
    · exact ih (fmax a b) x hx

/-- The running-maximum fold returns its seed or some list element. -/
theorem foldl_fmax_mem :
    ∀ (l : List ℚ) (a : ℚ), l.foldl fmax a = a ∨ l.foldl fmax a ∈ l := by
  intro l
  induction l with
  | nil => intro a; exact Or.inl rfl
  | cons b t ih =>
    intro a
    rw [List.foldl_cons]
    rcases ih (fmax a b) with h | h
    · rw [h, fmax_eq_max]
      rcases max_choice a b with h' | h'
      · exact Or.inl h'
      · exact Or.inr (by rw [h']; exact List.mem_cons_self b t)
    · exact Or.inr (List.mem_cons_of_mem b h)

/-- A window average is never negative: samples are unsigned. -/
theorem average_nonneg (slice : List Nat) : 0 ≤ average slice := by
  rw [average]
  exact div_nonneg (Nat.cast_nonneg _) (Nat.cast_nonneg _)

/-- The per-duration list of window averages always holds
`n - d + 1 ≥ 1` entries. -/
theorem windowAvgs_length (power_data : List Nat) (d : Nat) :
    (windowAvgs power_data d).length = power_data.length - d + 1 := by
  rw [windowAvgs, List.length_map, List.length_range]

theorem bestAvg_nonneg (power_data : List Nat) (d : Nat) : 0 ≤ bestAvg power_data d :=
  le_foldl_fmax (windowAvgs power_data d) 0

/-- The fold of the source's binary maximum agrees with the order-theoretic
maximum fold. -/
theorem foldl_fmax_eq_foldl_max :
    ∀ (l : List ℚ) (a : ℚ), l.foldl fmax a = l.foldl max a := by
  intro l
  induction l with
  | nil => intro a; rfl
  | cons b t ih =>
    intro a
    rw [List.foldl_cons, List.foldl_cons, fmax_eq_max, ih]

/-- Membership characterization of the power curve: for non-empty input,
its entries are exactly the pairs `(d, bestAvg pd d)` for candidate `d`. -/
theorem mem_calculate_power_curve {power_data : List Nat} (h : power_data ≠ []) {e : Nat × ℚ} :
    e ∈ calculate_power_curve power_data ↔
      ∃ d ∈ get_power_curve_buckets power_data.length, e = (d, bestAvg power_data d) := by
  rw [calculate_power_curve, if_neg (by simpa using h), List.mem_map]
  constructor
  · rintro ⟨d, hd, rfl⟩; exact ⟨d, hd, rfl⟩
  · rintro ⟨d, hd, rfl⟩; exact ⟨d, hd, rfl⟩

end Helpers

/-- Claim C2: for every recording length `n`, the candidate duration set equals the
prefix of the global staircase consisting of all entries `≤ min(n, 86400)`
(equivalently, the staircase filtered by that bound), and the power curve has
exactly one entry per such staircase entry. -/
theorem candidate_durations_are_staircase_prefix :
    (∀ n, get_power_curve_buckets n =
        POWER_CURVE_BUCKETS.filter (fun x => decide (x ≤ min n MAX_DURATION))) ∧
    ∀ power_data : List Nat,
      (calculate_power_curve power_data).length =
        (POWER_CURVE_BUCKETS.filter
          (fun x => decide (x ≤ min power_data.length MAX_DURATION))).length := by
  refine ⟨getBuckets_eq_filter, fun pd => ?_⟩
  by_cases h : pd = []
  · subst h
    have hnil : POWER_CURVE_BUCKETS.filter
        (fun x => decide (x ≤ min (List.length ([] : List Nat)) MAX_DURATION)) = [] := by
      rw [List.filter_eq_nil_iff]
      intro x hx
      have := (bucket_bounds x hx).1
      simp only [List.length_nil, decide_eq_true_eq, MAX_DURATION]
      omega
    rw [hnil, calculate_power_curve]
    simp
  · rw [calculate_power_curve, if_neg (by simpa using h), List.length_map,
      getBuckets_eq_filter]

/-- Claim C3: the power curve is empty exactly when the sample sequence is; in
particular the empty input yields an empty curve with no error, and any
non-empty input yields a non-empty curve. -/
theorem power_curve_empty_iff_no_samples :
    ∀ power_data : List Nat, (calculate_power_curve power_data = [] ↔ power_data = []) := by
  intro pd
  constructor
  · intro h
    by_contra hne
    rw [calculate_power_curve, if_neg (by simpa using hne), List.map_eq_nil_iff] at h
    have h1 : (1 : Nat) ∈ get_power_curve_buckets pd.length := by
      rw [mem_getBuckets]
      refine ⟨one_mem_buckets, le_min (List.length_pos.mpr hne) (by norm_num [MAX_DURATION])⟩
    rw [h] at h1
    exact List.not_mem_nil 1 h1
  · rintro rfl
    rfl

/-- Claim C4: the power curve is strictly ascending in duration (hence duplicate
free), for every input. -/
theorem power_curve_strictly_ascending :
    ∀ power_data : List Nat,
      (calculate_power_curve power_data).Pairwise (fun a b => a.1 < b.1) := by
  intro pd
  by_cases h : pd = []
  · subst h
    rw [calculate_power_curve]
    simp
  · rw [calculate_power_curve, if_neg (by simpa using h), List.pairwise_map]
    have hsub : List.Sublist (get_power_curve_buckets pd.length) POWER_CURVE_BUCKETS := by
      rw [getBuckets_eq_filter]
      exact List.filter_sublist _
    exact (bucket_pairwise_lt.sublist hsub).imp fun hab => hab

/-- Claim C5: every entry of the power curve has a duration between 1 and the
sample count, and no candidate duration ever exceeds the sample count. -/
theorem reported_durations_within_recording (power_data : List Nat) (d : Nat) (p : ℚ)
    (h : (d, p) ∈ calculate_power_curve power_data) :
    (1 ≤ d ∧ d ≤ power_data.length) ∧
      ∀ d', d' ∈ get_power_curve_buckets power_data.length → d' ≤ power_data.length := by
  have hcand : ∀ d', d' ∈ get_power_curve_buckets power_data.length →
      d' ≤ power_data.length := by
    intro d' hd'
    exact le_trans (mem_getBuckets.mp hd').2 (min_le_left _ _)
  have hne : power_data ≠ [] := by
    intro he
    subst he
    rw [calculate_power_curve] at h
    simp at h
  rcases (mem_calculate_power_curve hne).mp h with ⟨d', hd', he⟩
  injection he with h1 h2
  subst h1
  exact ⟨⟨(bucket_bounds d (mem_getBuckets.mp hd').1).1, hcand d hd'⟩, hcand⟩

/-- Witness for C5 at the spec's concrete scenario, duration 2. -/
theorem reported_durations_within_recording_witness :
    (1 ≤ 2 ∧ 2 ≤ ([100, 200, 300, 400] : List Nat).length) ∧
      ∀ d', d' ∈ get_power_curve_buckets ([100, 200, 300, 400] : List Nat).length →
        d' ≤ ([100, 200, 300, 400] : List Nat).length :=
  reported_durations_within_recording [100, 200, 300, 400] 2 (bestAvg [100, 200, 300, 400] 2)
    (List.mem_map.mpr ⟨2, by decide, rfl⟩)

/-- Claim C1: for a non-empty recording and any candidate duration `d`, the curve
contains the entry for `d`, whose reported value is the maximum of the
`n - d + 1` contiguous window averages with the running maximum seeded at 0:
it is non-negative, bounds every window average, and is either one of the
window averages or the 0 seed. -/
theorem power_curve_entry_is_floored_window_max (power_data : List Nat)
    (hne : power_data ≠ []) (d : Nat)
    (hd : d ∈ get_power_curve_buckets power_data.length) :
    (d, bestAvg power_data d) ∈ calculate_power_curve power_data ∧
      0 ≤ bestAvg power_data d ∧
      (∀ i < power_data.length - d + 1,
        average (window power_data i d) ≤ bestAvg power_data d) ∧
      (bestAvg power_data d = 0 ∨
        ∃ i < power_data.length - d + 1,
          bestAvg power_data d = average (window power_data i d)) := by
  refine ⟨(mem_calculate_power_curve hne).mpr ⟨d, hd, rfl⟩, bestAvg_nonneg _ _, ?_, ?_⟩
  · intro i hi
    show average (window power_data i d) ≤ (windowAvgs power_data d).foldl fmax 0
    apply mem_le_foldl_fmax
    rw [windowAvgs]
    exact List.mem_map.mpr ⟨i, List.mem_range.mpr hi, rfl⟩
  · rcases foldl_fmax_mem (windowAvgs power_data d) 0 with h | h
    · exact Or.inl h
    · right
      rw [windowAvgs] at h
      rcases List.mem_map.mp h with ⟨i, hi, he⟩
      refine ⟨i, List.mem_range.mp hi, ?_⟩
      rw [bestAvg, windowAvgs]
      exact he.symm

/-- Witness for C1 at the spec's concrete scenario, duration 2. -/
theorem power_curve_entry_is_floored_window_max_witness :
    (([100, 200, 300, 400] : List Nat) ≠ [] ∧
        2 ∈ get_power_curve_buckets ([100, 200, 300, 400] : List Nat).length) ∧
      ((2, bestAvg [100, 200, 300, 400] 2) ∈ calculate_power_curve [100, 200, 300, 400] ∧
        0 ≤ bestAvg [100, 200, 300, 400] 2 ∧
        (∀ i < ([100, 200, 300, 400] : List Nat).length - 2 + 1,
          average (window [100, 200, 300, 400] i 2) ≤ bestAvg [100, 200, 300, 400] 2) ∧
        (bestAvg [100, 200, 300, 400] 2 = 0 ∨
          ∃ i < ([100, 200, 300, 400] : List Nat).length - 2 + 1,
            bestAvg [100, 200, 300, 400] 2 = average (window [100, 200, 300, 400] i 2))) :=
  ⟨⟨by decide, by decide⟩,
    power_curve_entry_is_floored_window_max [100, 200, 300, 400] (by decide) 2 (by decide)⟩

/-- Claim C10: because samples are unsigned, the 0 seed never alters the result:
every curve entry's value is the plain, unfloored maximum of its window
averages, and every reported value is non-negative. -/
theorem zero_seed_never_alters_result (power_data : List Nat) (d : Nat) (p : ℚ)
    (hne : power_data ≠ []) (h : (d, p) ∈ calculate_power_curve power_data) :
    (windowAvgs power_data d).max? = some p ∧ 0 ≤ p := by
  rcases (mem_calculate_power_curve hne).mp h with ⟨d', hd', he⟩
  injection he with h1 h2
  subst h1
  subst h2
  refine ⟨?_, bestAvg_nonneg _ _⟩
  obtain ⟨a, rest, hcons⟩ : ∃ a rest, windowAvgs power_data d = a :: rest := by
    cases hw : windowAvgs power_data d with
    | nil =>
      exfalso
      have hl := windowAvgs_length power_data d
      rw [hw] at hl
      simp at hl
    | cons a rest => exact ⟨a, rest, rfl⟩
  have ha : 0 ≤ a := by
    have hmem : a ∈ windowAvgs power_data d := by
      rw [hcons]
      exact List.mem_cons_self a rest
    rw [windowAvgs] at hmem
    rcases List.mem_map.mp hmem with ⟨i, _, he'⟩
    rw [← he']
    exact average_nonneg _
  have hb : bestAvg power_data d = rest.foldl max a := by
    rw [bestAvg, hcons, List.foldl_cons, show fmax 0 a = a from by rw [fmax, if_pos ha],
      foldl_fmax_eq_foldl_max]
  rw [hcons, hb, List.max?_cons']

/-- Witness for C10 at the spec's concrete scenario, duration 2. -/
theorem zero_seed_never_alters_result_witness :
    (windowAvgs [100, 200, 300, 400] 2).max? = some (bestAvg [100, 200, 300, 400] 2) ∧
      0 ≤ bestAvg [100, 200, 300, 400] 2 :=
  zero_seed_never_alters_result [100, 200, 300, 400] 2 (bestAvg [100, 200, 300, 400] 2)
    (by decide) (List.mem_map.mpr ⟨2, by decide, rfl⟩)

/-- Claim C9: once the recording is at least 86380 seconds long, the last power
curve entry has duration 86380, and the duration 86400 itself is never a
candidate for any recording length. -/
theorem max_candidate_duration_is_86380 (power_data : List Nat)
    (h : 86380 ≤ power_data.length) :
    ((calculate_power_curve power_data).getLast?).map Prod.fst = some 86380 ∧
      ∀ n, 86400 ∉ get_power_curve_buckets n := by
  have hnot : ∀ n, 86400 ∉ get_power_curve_buckets n := by
    intro n hmem
    have := (bucket_bounds 86400 (mem_getBuckets.mp hmem).1).2
    omega
  refine ⟨?_, hnot⟩
  have hne : power_data ≠ [] := by
    intro he
    rw [he] at h
    simp at h
  have hfull : get_power_curve_buckets power_data.length = POWER_CURVE_BUCKETS := by
    rw [getBuckets_eq_filter, List.filter_eq_self]
    intro x hx
    have hb := (bucket_bounds x hx).2
    simp only [decide_eq_true_eq, MAX_DURATION]
    omega
  rw [calculate_power_curve, if_neg (by simpa using hne), hfull, List.getLast?_map,
    bucket_getLast?]
  rfl

/-- Witness for C9 at a 86380-second recording of zeros. -/
theorem max_candidate_duration_is_86380_witness :
    86380 ≤ (List.replicate 86380 (0 : Nat)).length ∧
      (((calculate_power_curve (List.replicate 86380 (0 : Nat))).getLast?).map Prod.fst =
          some 86380 ∧
        ∀ n, 86400 ∉ get_power_curve_buckets n) :=
  ⟨le_of_eq (List.length_replicate 86380 0).symm,
    max_candidate_duration_is_86380 _ (le_of_eq (List.length_replicate 86380 0).symm)⟩

/-- Claim C6: on the concrete input [100, 200, 300, 400] the engine reports
exactly [(1, 400), (2, 350), (3, 300), (4, 250)]. -/
theorem power_curve_concrete_100_200_300_400 :
    calculate_power_curve [100, 200, 300, 400] =
      [(1, 400), (2, 350), (3, 300), (4, 250)] := by
  have hb : get_power_curve_buckets (List.length [100, 200, 300, 400]) = [1, 2, 3, 4] := by
    decide
  rw [calculate_power_curve, if_neg (by decide), hb]
  norm_num [bestAvg, windowAvgs, window, average, fmax, List.range_succ, List.range_zero,
    List.foldl_cons, List.foldl_nil, List.drop_succ_cons, List.drop_zero, List.take_succ_cons,
    List.take_zero, List.sum_cons, List.sum_nil]

/-- The prefix-sum array evaluated at `i` is the sum of the first `i`
samples (stated for a general accumulator seed). -/
theorem scanl_add_getD :
    ∀ (l : List Nat) (a i : Nat), i ≤ l.length →
      (List.scanl (· + ·) a l).getD i 0 = a + (l.take i).sum := by
  intro l
  induction l with
  | nil =>
    intro a i h
    rw [List.length_nil, Nat.le_zero] at h
    subst h
    simp [List.scanl]
  | cons x t ih =>
    intro a i h
    rw [List.scanl_cons, List.singleton_append]
    cases i with
    | zero => simp
    | succ j =>
      rw [List.getD_cons_succ, ih (a + x) j (by simpa using h), List.take_succ_cons,
        List.sum_cons]
      ring

/-- A window sum can be recovered from the prefix-sum array. -/
theorem window_sum_eq (power_data : List Nat) (i d : Nat) (h : i + d ≤ power_data.length) :
    (prefixSums power_data).getD (i + d) 0 - (prefixSums power_data).getD i 0 =
      (window power_data i d).sum := by
  rw [prefixSums, scanl_add_getD power_data 0 (i + d) h,
    scanl_add_getD power_data 0 i (by omega), Nat.zero_add, Nat.zero_add, List.take_add,
    List.sum_append, window]
  omega

/-- Every full window has exactly `d` samples. -/
theorem window_length (power_data : List Nat) (i d : Nat) (h : i + d ≤ power_data.length) :
    (window power_data i d).length = d := by
  rw [window, List.length_take, List.length_drop]
  omega

/-- For an in-range duration the prefix-sum window averages coincide with
the naive ones. -/
theorem windowAvgsOpt_eq (power_data : List Nat) (d : Nat) (hdn : d ≤ power_data.length) :
    windowAvgsOpt power_data d = windowAvgs power_data d := by
  simp only [windowAvgsOpt, windowAvgs]
  apply List.map_congr_left
  intro i hi
  rw [List.mem_range] at hi
  have hido : i + d ≤ power_data.length := by omega
  rw [window_sum_eq power_data i d hido, average, window_length power_data i d hido]

/-- Claim C7: the recommended prefix-sum optimization returns exactly the same
power curve as the naive implementation, for every input. -/
theorem prefix_sum_optimization_equivalent :
    ∀ power_data : List Nat,
      calculate_power_curve_opt power_data = calculate_power_curve power_data := by
  intro pd
  rw [calculate_power_curve_opt, calculate_power_curve]
  by_cases h : pd.isEmpty
  · rw [if_pos h, if_pos h]
  · rw [if_neg h, if_neg h]
    apply List.map_congr_left
    intro d hd
    have hdn : d ≤ pd.length := le_trans (mem_getBuckets.mp hd).2 (min_le_left _ _)
    rw [bestAvgOpt, bestAvg, windowAvgsOpt_eq pd d hdn]

/-- Looking up a tag in an index-tagged result list finds the tagged value,
whatever order the results were produced in, as long as tags are unique. -/
theorem find?_tagged {α : Type} (g : Nat → α) (j : Nat) :
    ∀ ord : List Nat, ord.Nodup → j ∈ ord →
      ((ord.map fun i => (i, g i)).find? fun r => r.1 == j) = some (j, g j) := by
  intro ord
  induction ord with
  | nil => intro _ h; exact absurd h (List.not_mem_nil j)
  | cons a t ih =>
    intro hnd hj
    rw [List.map_cons]
    by_cases haj : a = j
    · subst haj
      exact List.find?_cons_of_pos _ (by simp)
    · rw [List.find?_cons_of_neg _ (by simp [haj])]
      refine ih (List.nodup_cons.mp hnd).2 ?_
      rcases List.mem_cons.mp hj with rfl | hjt
      · exact absurd rfl haj
      · exact hjt

/-- Reading a list back through positional lookups over its index range is
the identity (composed with any per-element map). -/
theorem map_getD_range {α β : Type} (f : α → β) (x0 : α) :
    ∀ l : List α, (List.range l.length).map (fun j => f (l.getD j x0)) = l.map f := by
  intro l
  induction l with
  | nil => rfl
  | cons a t ih =>
    rw [List.length_cons, List.range_succ_eq_map, List.map_cons, List.map_map]
    rw [show ((fun j => f ((a :: t).getD j x0)) ∘ Nat.succ) = fun j => f (t.getD j x0) from
      funext fun j => by simp, ih, List.map_cons]
    simp

/-- Claim C8: the engine is deterministic under scheduling: evaluating the
candidate durations in any completion order and fanning the tagged results
back in by index yields exactly the power curve of the sequential embedding,
so two runs always produce identical output. -/
theorem power_curve_schedule_independent (power_data : List Nat) (ord : List Nat)
    (h : ord.Perm (List.range (get_power_curve_buckets power_data.length).length)) :
    scheduled_power_curve power_data ord = calculate_power_curve power_data := by
  simp only [scheduled_power_curve, calculate_power_curve]
  by_cases he : power_data.isEmpty
  · rw [if_pos he, if_pos he]
  · rw [if_neg he, if_neg he]
    have hnd : ord.Nodup := h.nodup_iff.mpr (List.nodup_range _)
    calc (List.range (get_power_curve_buckets power_data.length).length).filterMap
          (fun j => ((ord.map fun i =>
              (i, ((get_power_curve_buckets power_data.length).getD i 0,
                bestAvg power_data ((get_power_curve_buckets power_data.length).getD i 0)))).find?
            fun r => r.1 == j).map Prod.snd)
        = (List.range (get_power_curve_buckets power_data.length).length).filterMap
            (fun j => some ((get_power_curve_buckets power_data.length).getD j 0,
              bestAvg power_data ((get_power_curve_buckets power_data.length).getD j 0))) := by
          apply List.filterMap_congr
          intro j hj
          rw [find?_tagged
            (fun i => ((get_power_curve_buckets power_data.length).getD i 0,
              bestAvg power_data ((get_power_curve_buckets power_data.length).getD i 0))) j ord
            hnd (h.mem_iff.mpr hj)]
          rfl
      _ = (List.range (get_power_curve_buckets power_data.length).length).map
            (fun j => ((get_power_curve_buckets power_data.length).getD j 0,
              bestAvg power_data ((get_power_curve_buckets power_data.length).getD j 0))) :=
          congr_fun (List.filterMap_eq_map _) _
      _ = (get_power_curve_buckets power_data.length).map
            (fun d => (d, bestAvg power_data d)) :=
          map_getD_range (fun d => (d, bestAvg power_data d)) 0
            (get_power_curve_buckets power_data.length)

/-- Witness for C8: a shuffled completion order on the spec's concrete
scenario reproduces the sequential curve. -/
theorem power_curve_schedule_independent_witness :
    List.Perm [2, 0, 3, 1]
        (List.range (get_power_curve_buckets ([100, 200, 300, 400] : List Nat).length).length) ∧
      scheduled_power_curve [100, 200, 300, 400] [2, 0, 3, 1] =
        calculate_power_curve [100, 200, 300, 400] :=
  ⟨by decide, power_curve_schedule_independent [100, 200, 300, 400] [2, 0, 3, 1] (by decide)⟩

end PowerCurve
